import Mathlib

/-!
Shallow embedding of the OpenMemory memory-consistency and search subsystem
(src/openmemory/app/mcp_server.py and src/openmemory/sync_qdrant_from_postgres.py).

The relational data model (app/models.py) and the access-control helper
(app/utils/permissions.check_memory_access_permissions) are imported by the
server but are not part of the source tree; they are modelled from the spec
where noted.  All identifiers (memory ids, user ids, app ids) are strings,
matching the string form in which the server compares them; timestamps are
naturals.
-/

namespace OpenMemory

/-- Modelled from the spec: memory lifecycle state, `state` is in the set
consisting of active and deleted (spec section 3; app/models.py is not in the
source tree). -/
inductive MemoryState where
  | active
  | deleted
deriving DecidableEq, Repr

/-- Modelled from the spec: a Memory row - identifier, owning user, originating
app, text content, state, timestamps with deleted-at nullable (spec section 3;
app/models.py is not in the source tree). -/
structure Memory where
  id : String
  user_id : String
  app_id : String
  content : String
  state : MemoryState
  created_at : Nat
  updated_at : Nat
  deleted_at : Option Nat
deriving DecidableEq, Repr

/-- Modelled from the spec: append-only memory status history entry with a
nullable old state (spec section 3; app/models.py is not in the source tree). -/
structure MemoryStatusHistory where
  memory_id : String
  changed_by : String
  old_state : Option MemoryState
  new_state : MemoryState
deriving DecidableEq, Repr

/-- A value stored in the free-form metadata of an access-log entry. -/
inductive MetaVal where
  | str (v : String)
  | null
  | num (v : Rat)
deriving DecidableEq, Repr

/-- Modelled from the spec: append-only access-log entry - memory id, accessing
app, access type, free-form metadata (spec section 3; app/models.py is not in
the source tree). -/
structure MemoryAccessLog where
  memory_id : String
  app_id : String
  access_type : String
  metadata_ : List (String × MetaVal)
deriving DecidableEq, Repr

/-- Modelled from the spec: a user, with an internal identifier `id` and the
opaque external identity key `user_id` (spec section 3). -/
structure User where
  id : String
  user_id : String
deriving DecidableEq, Repr

/-- Modelled from the spec: an application/client with an `is_active` flag
(spec section 3). -/
structure App where
  id : String
  name : String
  is_active : Bool
deriving DecidableEq, Repr

/-- The relational store visible to the server: memory rows plus the two
append-only audit tables. -/
structure DB where
  memories : List Memory
  history : List MemoryStatusHistory
  access_logs : List MemoryAccessLog
deriving DecidableEq, Repr

/-- Modelled from the spec: `check_memory_access_permissions` (imported from
app/utils/permissions, which is not in the source tree) is a deterministic,
side-effect-free, pluggable per-memory policy (spec section 4.1), so it is a
parameter: a boolean predicate on a memory row and the requesting app id. -/
abbrev ACL := Memory → String → Bool

/-- The accessible set computed by the server before a search / list /
delete-all: all memory rows owned by the user, kept if the access check
passes, projected to their ids (mcp_server.py lines 172-173, 316-317,
610-611). -/
def accessibleMemoryIds (mems : List Memory) (userId : String) (appId : String)
    (acl : ACL) : List String :=
  (((mems.filter (fun m => m.user_id == userId)).filter
      (fun m => acl m appId)).map (fun m => m.id))

/- ### Postgres LIKE matching, for `Memory.content.ilike("%" + query + "%")` -/

/-- Case-insensitive Postgres LIKE matching of a whole text against a pattern,
as list of characters: `%` matches any sequence, `_` any single character,
anything else itself up to case.  (Escape sequences are not modelled; the
fallback-search theorems restrict the query to patterns without special
characters, where LIKE coincides with substring containment.) -/
def likeMatch : List Char → List Char → Bool
  | [], t => t.isEmpty
  | p :: ps, t =>
    if p == '%' then
      t.tails.any (fun s => likeMatch ps s)
    else if p == '_' then
      (match t with
       | [] => false
       | _ :: ts => likeMatch ps ts)
    else
      (match t with
       | [] => false
       | t1 :: ts => (p.toLower == t1.toLower) && likeMatch ps ts)

/-- The fallback search's SQL condition `Memory.content.ilike("%" + query + "%")`
(mcp_server.py line 233). -/
def ilikeContains (content query : String) : Bool :=
  likeMatch ('%' :: (query.data ++ ['%'])) content.data

/-- Lower-casing of a character list, used to state case-insensitive
substring containment. -/
def lowerL (l : List Char) : List Char := l.map Char.toLower

/-- Whether the first list occurs at the very start of the second. -/
def matchesAt : List Char → List Char → Bool
  | [], _ => true
  | _ :: _, [] => false
  | q :: qs, t :: ts => q == t && matchesAt qs ts

/-- Whether the first list occurs contiguously anywhere inside the second. -/
def hasSub : List Char → List Char → Bool
  | q, [] => matchesAt q []
  | q, t :: ts => matchesAt q (t :: ts) || hasSub q ts

/-- Case-insensitive substring containment, the spec's reading of the fallback
match ("a case-insensitive substring match against memory content"). -/
def containsCI (content query : String) : Bool :=
  hasSub (lowerL query.data) (lowerL content.data)

/-- A query is wildcard-free when none of its characters is a LIKE
metacharacter; for such queries ilike("%" + query + "%") is exactly
case-insensitive substring containment. -/
def noWild (q : List Char) : Bool :=
  q.all (fun c => c != '%' && c != '_' && c != '\\')

/- ### Search (mcp_server.py, search_memory) -/

/-- One nearest-neighbour hit from the vector capability (mem0 OutputData):
a nullable id, a score and a payload. -/
structure Hit where
  id : Option String
  score : Rat
  payload_data : Option String
  payload_hash : Option String
  payload_created_at : Option Nat
  payload_updated_at : Option Nat
deriving DecidableEq, Repr

/-- One entry of the JSON "results" array returned by search_memory. -/
structure ResultItem where
  id : Option String
  memory : Option String
  hash : Option String
  created_at : Option Nat
  updated_at : Option Nat
  score : Rat
deriving DecidableEq, Repr

/-- The JSON response of search_memory: either a result list (with the
optional search_method tag of the fallback path) or the error string built by
the outer exception handler. -/
inductive SearchResponse where
  | ok (results : List ResultItem) (search_method : Option String)
  | err (msg : String)
deriving DecidableEq, Repr

/-- The hit-filtering loop of the vector path (mcp_server.py lines 188-195).
`allowed` is `none` when the accessible set is empty (Python: `allowed = set(...)
if accessible_memory_ids else None`).  The skip condition is the source's
`allowed and h.id is None or h.id not in allowed`, which parses as
`(allowed and h.id is None) or (h.id not in allowed)`; when `allowed` is None
the membership test `h.id not in None` raises TypeError, modelled as the
error case. -/
def filterHitsPy (allowed : Option (List String)) : List Hit → Except Unit (List Hit)
  | [] => .ok []
  | h :: rest =>
    match allowed with
    | none => .error ()
    | some s =>
      match filterHitsPy (some s) rest with
      | .error e => .error e
      | .ok ks =>
        .ok (if (!s.isEmpty && h.id.isNone) ||
               !(match h.id with
                 | some i => s.contains i
                 | none => false) then ks else h :: ks)

/-- Projection of a kept hit into a result item (mcp_server.py lines 197-204). -/
def hitToResult (h : Hit) : ResultItem :=
  ⟨h.id, h.payload_data, h.payload_hash, h.payload_created_at, h.payload_updated_at, h.score⟩

/-- A metadata value for a nullable string (Python None becomes JSON null). -/
def optMeta : Option String → MetaVal
  | some s => .str s
  | none => .null

/-- The access-log entries written by the vector path: one per result whose id
is truthy (mcp_server.py lines 206-218; Python `if r.get("id")` is false for
both a missing id and the empty string). -/
def vectorLogs (appId : String) (query : String) (results : List ResultItem) :
    List MemoryAccessLog :=
  results.filterMap (fun r =>
    match r.id with
    | some i =>
      if i == "" then none
      else some ⟨i, appId, "search",
        [("query", .str query), ("score", .num r.score), ("hash", optMeta r.hash)]⟩
    | none => none)

/-- search_memory (mcp_server.py lines 152-279).  The memory client is
abstracted as `client`: `some hits` when the vector capability is available
and its nearest-neighbour search returns `hits`, `none` when
get_memory_client_safe returns None.  The vector path computes the accessible
set, filters hits through `filterHitsPy` (a TypeError there is caught by the
outer handler, which returns an error string and commits nothing); the
fallback path is the (user, app, state=active, ilike) query capped at 10,
followed by the per-memory permission check, with fixed score 1 and the
database_text tag. -/
def search_memory (db : DB) (user : User) (app : App) (acl : ACL)
    (client : Option (List Hit)) (query : String) : SearchResponse × DB :=
  match client with
  | some hits =>
    let accessible_memory_ids := accessibleMemoryIds db.memories user.id app.id acl
    let allowed : Option (List String) :=
      if accessible_memory_ids.isEmpty then none else some accessible_memory_ids
    match filterHitsPy allowed hits with
    | .error _ => (.err "Error searching memory", db)
    | .ok kept =>
      let results := kept.map hitToResult
      (.ok results none,
        { db with access_logs := db.access_logs ++ vectorLogs app.id query results })
  | none =>
    let found := (db.memories.filter (fun m =>
        m.user_id == user.id && m.app_id == app.id &&
        decide (m.state = MemoryState.active) && ilikeContains m.content query)).take 10
    let permitted := found.filter (fun m => acl m app.id)
    let results := permitted.map (fun m =>
      ResultItem.mk (some m.id) (some m.content) none (some m.created_at)
        (some m.updated_at) 1)
    let logs := permitted.map (fun m =>
      MemoryAccessLog.mk m.id app.id "search"
        [("query", .str query), ("search_method", .str "database_text")])
    (.ok results (some "database_text"),
      { db with access_logs := db.access_logs ++ logs })

/- ### Write path: add_memories (mcp_server.py lines 68-148) -/

/-- A change event reported by the embedding capability for one memory id. -/
inductive MemEvent where
  | ADD
  | DELETE
deriving DecidableEq, Repr

/-- One entry of the `results` list returned by `memory_client.add`. -/
structure ClientResult where
  id : String
  event : MemEvent
  memory : String
deriving DecidableEq, Repr

/-- The outcome reported by add_memories: either the client response is echoed
back, or one of the error strings. -/
inductive AddResponse where
  | ok
  | err (msg : String)
deriving DecidableEq, Repr

/-- Replace the first memory row carrying the given id (the effect of
`db.query(Memory).filter(Memory.id == memory_id).first()` followed by
attribute mutation). -/
def updateFirstMem (mems : List Memory) (mid : String) (f : Memory → Memory) :
    List Memory :=
  match mems with
  | [] => []
  | m :: rest => if m.id == mid then f m :: rest else m :: updateFirstMem rest mid f

/-- Processing of one client event inside add_memories (mcp_server.py lines
101-139).  For an ADD, the source computes the history's old state as
`MemoryState.deleted if memory else None` - but at that point the local
`memory` has already been rebound to the (new or reactivated) Memory object,
so it is always truthy and the expression always evaluates to deleted; the
None branch is unreachable.  The embedding therefore writes `some .deleted`
unconditionally, which is the source's actual behaviour. -/
def processResult (user : User) (app : App) (now : Nat) (db : DB)
    (r : ClientResult) : DB :=
  let memory? := db.memories.find? (fun m => m.id == r.id)
  match r.event with
  | .ADD =>
    let mems' :=
      match memory? with
      | none => db.memories ++
          [⟨r.id, user.id, app.id, r.memory, .active, now, now, none⟩]
      | some _ => updateFirstMem db.memories r.id
          (fun m => { m with state := .active, content := r.memory })
    { db with memories := mems',
              history := db.history ++
                [⟨r.id, user.id, some .deleted, .active⟩] }
  | .DELETE =>
    match memory? with
    | none => db
    | some _ =>
      { db with memories := updateFirstMem db.memories r.id
                  (fun m => { m with state := .deleted, deleted_at := some now }),
                history := db.history ++
                  [⟨r.id, user.id, some .active, .deleted⟩] }

/-- add_memories (mcp_server.py lines 68-148).  `client` is `some events` when
the memory client is available and its `add` call reports `events`, `none`
when get_memory_client_safe returns None.  The paused-app check happens before
any call to the client and before any relational write. -/
def add_memories (db : DB) (user : User) (app : App)
    (client : Option (List ClientResult)) (now : Nat) : AddResponse × DB :=
  match client with
  | none =>
    (.err "Error: Memory system is currently unavailable. Please try again later.", db)
  | some results =>
    if !app.is_active then
      (.err ("Error: App " ++ app.name ++
        " is currently paused on OpenMemory. Cannot create new memories."), db)
    else
      (.ok, results.foldl (processResult user app now) db)

/- ### Write path: delete_all_memories (mcp_server.py lines 591-652) -/

/-- The relational mutation applied to each accessible memory during
delete_all_memories: state becomes deleted and deleted_at is set to the single
timestamp captured once for the whole call (mcp_server.py lines 621-626). -/
def markDeleted (now : Nat) (m : Memory) : Memory :=
  { m with state := .deleted, deleted_at := some now }

/-- Sequential per-id application of the delete loop of delete_all_memories:
for each accessible id, the first row with that id is marked deleted. -/
def applyDeletes (now : Nat) (mems : List Memory) (ids : List String) : List Memory :=
  ids.foldl (fun acc mid => updateFirstMem acc mid (markDeleted now)) mems

/-- The full outcome of delete_all_memories: the response string, the new
relational state, and the ids successfully removed from the vector store by
the best-effort per-id delete loop. -/
structure DeleteAllOutcome where
  response : String
  db : DB
  vectorDeleted : List String
deriving DecidableEq, Repr

/-- delete_all_memories (mcp_server.py lines 591-652).  `vectorDeleteFails`
says which per-id vector-store deletes raise; each such exception is caught
and logged (lines 615-618) and has no effect on the relational loop that
follows.  The selection is the accessible set - owned by the user and passing
the access check - with no condition on the current state; each selected id
receives the shared timestamp, one history entry with old state active, and
one delete_all access-log entry. -/
def delete_all_memories (db : DB) (user : User) (app : App) (acl : ACL)
    (vectorDeleteFails : String → Bool) (now : Nat) : DeleteAllOutcome :=
  let accessible_memory_ids := accessibleMemoryIds db.memories user.id app.id acl
  let vectorDeleted := accessible_memory_ids.filter (fun mid => !vectorDeleteFails mid)
  let memories' := applyDeletes now db.memories accessible_memory_ids
  let history' := db.history ++ accessible_memory_ids.map
      (fun mid => MemoryStatusHistory.mk mid user.id (some .active) .deleted)
  let logs' := db.access_logs ++ accessible_memory_ids.map
      (fun mid => MemoryAccessLog.mk mid app.id "delete_all"
        [("operation", .str "bulk_delete")])
  ⟨"Successfully deleted all memories", ⟨memories', history', logs'⟩, vectorDeleted⟩

/- ### list_memories (mcp_server.py lines 283-357) -/

/-- One record returned by the vector capability's get_all: a JSON object that
may or may not carry an id, plus the hash field surfaced into list logs. -/
structure VecRecord where
  id : Option String
  hash : Option String
deriving DecidableEq, Repr

/-- The two response shapes handled by list_memories: a dict carrying a
`results` list, or a plain list of records. -/
inductive GetAllResponse where
  | dict (results : List VecRecord)
  | plain (records : List VecRecord)
deriving DecidableEq, Repr

/-- All records carried by a get_all response, whichever its shape. -/
def respRecords : GetAllResponse → List VecRecord
  | .dict rs => rs
  | .plain rs => rs

/-- The JSON response of list_memories. -/
inductive ListResponse where
  | ok (records : List VecRecord)
  | err (msg : String)
deriving DecidableEq, Repr

/-- The list access-log entry written per surfaced record (mcp_server.py
lines 324-332). -/
def mkListLog (appId : String) (i : String) (hash : Option String) :
    MemoryAccessLog :=
  ⟨i, appId, "list", [("hash", optMeta hash)]⟩

/-- The dict-shaped filtering loop of list_memories (lines 318-334): records
without an id are skipped, a record is kept when its id is in the accessible
set, and one list log is written per kept record. -/
def listFilterDict (accessible : List String) (appId : String) :
    List VecRecord → List VecRecord × List MemoryAccessLog
  | [] => ([], [])
  | r :: rest =>
    let p := listFilterDict accessible appId rest
    match r.id with
    | some i =>
      if accessible.contains i then (r :: p.1, mkListLog appId i r.hash :: p.2)
      else p
    | none => p

/-- The plain-list filtering loop of list_memories (lines 336-351): a record
without an id raises KeyError on `memory["id"]` (error case, nothing
committed); otherwise the row is looked up by id alone and kept when it
exists and passes the access check, with one list log per kept record. -/
def listFilterPlain (mems : List Memory) (acl : ACL) (appId : String) :
    List VecRecord → Except Unit (List VecRecord × List MemoryAccessLog)
  | [] => .ok ([], [])
  | r :: rest =>
    match r.id with
    | none => .error ()
    | some i =>
      match listFilterPlain mems acl appId rest with
      | .error e => .error e
      | .ok p =>
        match mems.find? (fun m => m.id == i) with
        | some m =>
          if acl m appId then .ok (r :: p.1, mkListLog appId i r.hash :: p.2)
          else .ok p
        | none => .ok p

/-- list_memories (mcp_server.py lines 283-357).  `client` is `some resp` when
the memory client is available and get_all returns `resp`.  The designated
virtual user "slack-bot" returns every fetched record before any filtering or
logging; every other user goes through the accessible-set filter with one
list log per surfaced record. -/
def list_memories (db : DB) (user : User) (app : App) (acl : ACL)
    (client : Option GetAllResponse) : ListResponse × DB :=
  match client with
  | none =>
    (.err "Error: Memory system is currently unavailable. Please try again later.", db)
  | some resp =>
    if user.user_id == "slack-bot" then
      (.ok (respRecords resp), db)
    else
      let accessible_memory_ids := accessibleMemoryIds db.memories user.id app.id acl
      match resp with
      | .dict results =>
        let p := listFilterDict accessible_memory_ids app.id results
        (.ok p.1, { db with access_logs := db.access_logs ++ p.2 })
      | .plain records =>
        match listFilterPlain db.memories acl app.id records with
        | .error _ => (.err "Error getting memories", db)
        | .ok p => (.ok p.1, { db with access_logs := db.access_logs ++ p.2 })

/- ### Bulk resynchronization (sync_qdrant_from_postgres.py) -/

/-- A relational row as seen by the sync job: the memory together with the
external user id of its owning user, or none when the `memory.user`
relationship is absent (sync_qdrant_from_postgres.py line 197). -/
structure MemRow where
  mem : Memory
  owner : Option String
deriving DecidableEq, Repr

/-- A value of the Python statistics dictionary returned by sync_qdrant. -/
inductive PyVal where
  | int (n : Nat)
  | bool (b : Bool)
deriving DecidableEq, Repr

/-- Side effects performed against the embedding and vector capabilities
during one sync run: number of batch embedding calls, number of batch upsert
operations, and the ids upserted. -/
structure SyncEffects where
  embedCalls : Nat
  upsertOps : Nat
  upsertedIds : List String
deriving DecidableEq, Repr

/-- The empty effect record: no embedding call, no upsert. -/
def noEffects : SyncEffects := ⟨0, 0, []⟩

/-- Concatenation of effect records in run order. -/
def combineEffects (a b : SyncEffects) : SyncEffects :=
  ⟨a.embedCalls + b.embedCalls, a.upsertOps + b.upsertOps,
   a.upsertedIds ++ b.upsertedIds⟩

/-- Append a memory to its user's group, preserving first-seen user order
(Python dict insertion order, sync_qdrant_from_postgres.py lines 213-215). -/
def addToGroup (groups : List (String × List Memory)) (uid : String)
    (m : Memory) : List (String × List Memory) :=
  match groups with
  | [] => [(uid, [m])]
  | g :: rest =>
    if g.1 == uid then (g.1, g.2 ++ [m]) :: rest
    else g :: addToGroup rest uid m

/-- Grouping and filtering of active memories by owning user (lines 192-215):
rows without an owner are dropped, owners outside the whitelist are dropped,
and for owners with a configured cutoff the memories created before the
cutoff are dropped. -/
def groupMemories (whitelist : List String) (cutoff : String → Option Nat)
    (rows : List MemRow) : List (String × List Memory) :=
  rows.foldl (fun groups row =>
    match row.owner with
    | none => groups
    | some uid =>
      if !whitelist.contains uid then groups
      else
        match cutoff uid with
        | some c =>
          if row.mem.created_at < c then groups else addToGroup groups uid row.mem
        | none => addToGroup groups uid row.mem) []

/-- bulk_sync_user_to_qdrant (lines 65-157).  An empty batch returns 0 before
anything else; a dry run returns the batch size with no capability call; a
real run performs one batch embedding call and one batch upsert, or raises
(the error case) when this user's sync fails - `fails` abstracts every
exception source of the real path (Qdrant connection, missing key, embedding
call, upsert). -/
def bulk_sync_user_to_qdrant (dry_run : Bool) (fails : String → Bool)
    (uid : String) (mems : List Memory) : Except Unit (Nat × SyncEffects) :=
  if mems.isEmpty then .ok (0, noEffects)
  else if dry_run then .ok (mems.length, noEffects)
  else if fails uid then .error ()
  else .ok (mems.length, ⟨1, 1, mems.map (fun m => m.id)⟩)

/-- The per-user loop of sync_qdrant (lines 229-240): synced and error
counters plus accumulated effects; an exception from one user's batch adds
that batch's size to the error counter and processing continues. -/
def runUsers (dry_run : Bool) (fails : String → Bool) :
    List (String × List Memory) → Nat × Nat × SyncEffects
  | [] => (0, 0, noEffects)
  | g :: gs =>
    let rest := runUsers dry_run fails gs
    match bulk_sync_user_to_qdrant dry_run fails g.1 g.2 with
    | .ok p => (p.1 + rest.1, rest.2.1, combineEffects p.2 rest.2.2)
    | .error _ => (rest.1, g.2.length + rest.2.1, rest.2.2)

/-- The result of one sync_qdrant invocation: the statistics dictionary (an
ordered key-value list, as a Python dict) and the capability side effects. -/
structure SyncRun where
  stats : List (String × PyVal)
  effects : SyncEffects
deriving DecidableEq, Repr

/-- sync_qdrant (lines 160-252): fetch the active memories, group and filter
them per user, run the per-user bulk sync, and return the statistics
dictionary with keys total, synced, errors and dry_run (lines 221-226). -/
def sync_qdrant (dry_run : Bool) (rows : List MemRow) (whitelist : List String)
    (cutoff : String → Option Nat) (fails : String → Bool) : SyncRun :=
  let memories := rows.filter (fun r => decide (r.mem.state = MemoryState.active))
  let groups := groupMemories whitelist cutoff memories
  let res := runUsers dry_run fails groups
  ⟨[("total", .int memories.length), ("synced", .int res.1),
    ("errors", .int res.2.1), ("dry_run", .bool dry_run)], res.2.2⟩

/- ### sync_vector_store (mcp_server.py lines 543-587) -/

/-- The JSON response of the sync_vector_store tool. -/
inductive ToolResponse where
  | success (statistics : List (String × PyVal))
  | errorResp (msg : String)
deriving DecidableEq, Repr

/-- Python dict key lookup on the statistics dictionary. -/
def lookupKey (d : List (String × PyVal)) (k : String) : Option PyVal :=
  (d.find? (fun p => p.1 == k)).map (fun p => p.2)

/-- sync_vector_store (mcp_server.py lines 543-587): runs sync_qdrant with
dry_run false and repackages result["total"], result["users_cleared"],
result["synced"] and result["errors"]; a missing key raises KeyError, which
the outer handler converts into an error response. -/
def sync_vector_store (rows : List MemRow) (whitelist : List String)
    (cutoff : String → Option Nat) (fails : String → Bool) : ToolResponse :=
  let result := (sync_qdrant false rows whitelist cutoff fails).stats
  if (lookupKey result "error").isSome then .errorResp "sync reported an error"
  else
    match lookupKey result "total", lookupKey result "users_cleared",
          lookupKey result "synced", lookupKey result "errors" with
    | some t, some u, some s, some e =>
      .success [("total_memories", t), ("users_cleared", u),
                ("memories_synced", s), ("errors", e)]
    | _, _, _, _ => .errorResp "KeyError while reading sync statistics"

/- ### Spec-side counting helpers for the sync statistics -/

/-- Total number of memories across the per-user groups. -/
def groupSizes (gs : List (String × List Memory)) : Nat :=
  (gs.map (fun g => g.2.length)).sum

/-- Memories counted as synced by a real run: every group whose user does not
fail (an empty group contributes its zero length either way). -/
def syncedOf (fails : String → Bool) (gs : List (String × List Memory)) : Nat :=
  (gs.map (fun g => if fails g.1 && !g.2.isEmpty then 0 else g.2.length)).sum

/-- Memories counted as errors by a real run: the batch sizes of the failing
users. -/
def errorsOf (fails : String → Bool) (gs : List (String × List Memory)) : Nat :=
  (gs.map (fun g => if fails g.1 && !g.2.isEmpty then g.2.length else 0)).sum

/-! ## Lemmas -/

/-- A pattern consisting of a single `%` matches every text. -/
lemma likeMatch_percent_nil (t : List Char) : likeMatch ['%'] t = true := by
  induction t with
  | nil => simp [likeMatch]
  | cons x xs ih => simp [likeMatch, List.tails] at ih ⊢

/-- For a wildcard-free pattern followed by a trailing `%`, LIKE matching is
case-insensitive matching at the start of the text. -/
lemma likeMatch_append_percent (q : List Char) :
    noWild q = true →
    ∀ t, likeMatch (q ++ ['%']) t = matchesAt (lowerL q) (lowerL t) := by
  induction q with
  | nil =>
    intro _ t
    simpa [lowerL, matchesAt] using likeMatch_percent_nil t
  | cons c q ih =>
    intro hq t
    rw [noWild, List.all_cons] at hq
    simp only [Bool.and_eq_true, bne_iff_ne, ne_eq] at hq
    have hq' : noWild q = true := by rw [noWild]; exact hq.2
    have hc1 : (c == '%') = false := by simp [hq.1.1.1]
    have hc2 : (c == '_') = false := by simp [hq.1.1.2]
    cases t with
    | nil =>
      simp [likeMatch, hc1, hc2, lowerL, matchesAt]
    | cons t1 ts =>
      have hih := ih hq' ts
      simp only [lowerL] at hih
      simp [likeMatch, hc1, hc2, lowerL, matchesAt, hih]

/-- Any-suffix matching at the start is exactly substring containment. -/
lemma tails_any_matchesAt (w : List Char) (t : List Char) :
    t.tails.any (fun s => matchesAt w (lowerL s)) = hasSub w (lowerL t) := by
  induction t with
  | nil => simp [List.tails, hasSub, lowerL]
  | cons x xs ih =>
    simp only [List.tails, List.any_cons, ih]
    simp [hasSub, lowerL]

/-- For a wildcard-free query, the ilike pattern percent-query-percent matches
exactly when the lowered query occurs inside the lowered text. -/
lemma likeMatch_wrapped (q : List Char) (hq : noWild q = true) :
    ∀ t, likeMatch ('%' :: (q ++ ['%'])) t = hasSub (lowerL q) (lowerL t) := by
  intro t
  have h1 : likeMatch ('%' :: (q ++ ['%'])) t =
      t.tails.any (fun s => likeMatch (q ++ ['%']) s) := by
    simp [likeMatch]
  rw [h1]
  have hfun : (fun s => likeMatch (q ++ ['%']) s) =
      (fun s => matchesAt (lowerL q) (lowerL s)) :=
    funext (fun s => likeMatch_append_percent q hq s)
  rw [hfun, tails_any_matchesAt]

/-- The fallback search's SQL ilike condition coincides with case-insensitive
substring containment whenever the query has no LIKE metacharacter. -/
lemma ilikeContains_eq_containsCI (content query : String)
    (hq : noWild query.data = true) :
    ilikeContains content query = containsCI content query :=
  likeMatch_wrapped query.data hq content.data

/-- With a non-None allowed set, the Python hit loop never raises and keeps
exactly the hits surviving the skip condition. -/
lemma filterHitsPy_some (s : List String) (hits : List Hit) :
    filterHitsPy (some s) hits =
      .ok (hits.filter (fun h =>
        !((!s.isEmpty && h.id.isNone) ||
          !(match h.id with
            | some i => s.contains i
            | none => false)))) := by
  induction hits with
  | nil => rfl
  | cons h rest ih =>
    simp only [filterHitsPy, ih, List.filter_cons]
    cases hsk : ((!s.isEmpty && h.id.isNone) ||
        !(match h.id with
          | some i => s.contains i
          | none => false)) <;> simp [hsk]

/-- Every hit kept by the loop has a non-null id that belongs to the allowed
set. -/
lemma filterHitsPy_kept_mem (s : List String) (hits kept : List Hit)
    (hok : filterHitsPy (some s) hits = .ok kept) :
    ∀ h ∈ kept, ∃ i, h.id = some i ∧ i ∈ s := by
  rw [filterHitsPy_some] at hok
  cases hok
  intro h hh
  have hmem := List.of_mem_filter hh
  revert hmem
  cases hid : h.id with
  | none => simp
  | some i =>
    intro hmem
    refine ⟨i, rfl, ?_⟩
    simp only [hid, Bool.not_or, Bool.and_eq_true, Bool.not_eq_eq_eq_not,
      Bool.not_not] at hmem
    have := hmem.2
    simpa using List.mem_of_elem_eq_true this

/-- C1: on the vector path, every result returned by search_memory has an id
belonging to the accessible set computed per-memory by the Access Control
Evaluator for the requesting app; hits with a null or non-accessible id are
dropped, and with an empty accessible set no hit is ever returned (the
response carries no result). -/
theorem search_vector_results_accessible
    (db : DB) (user : User) (app : App) (acl : ACL) (hits : List Hit)
    (query : String) (results : List ResultItem) (meth : Option String)
    (hres : (search_memory db user app acl (some hits) query).1 =
      .ok results meth)
    (r : ResultItem) (hr : r ∈ results) :
    r.id ∈ (accessibleMemoryIds db.memories user.id app.id acl).map some := by
  simp only [search_memory] at hres
  cases hempty : (accessibleMemoryIds db.memories user.id app.id acl).isEmpty with
  | true =>
    rw [hempty] at hres
    cases hits with
    | nil =>
      simp only [filterHitsPy] at hres
      simp only [if_true, List.map_nil] at hres
      cases hres
      simp at hr
    | cons h rest =>
      simp only [filterHitsPy] at hres
      simp at hres
  | false =>
    rw [hempty] at hres
    simp only [Bool.false_eq_true, if_false, filterHitsPy_some] at hres
    cases hres
    obtain ⟨h, hh, hht⟩ := List.mem_map.mp hr
    have hkept : h ∈ (hits.filter _) := hh
    have := filterHitsPy_kept_mem (accessibleMemoryIds db.memories user.id app.id acl)
      hits _ (filterHitsPy_some _ _) h hkept
    obtain ⟨i, hi, his⟩ := this
    subst hht
    exact List.mem_map.mpr ⟨i, his, by simp [hitToResult, hi]⟩

/-- C1 witness: a concrete vector search whose single returned result is
allow-listed. -/
theorem search_vector_results_accessible_witness :
    (some "m1" : Option String) ∈
      (accessibleMemoryIds [⟨"m1", "u", "a1", "hello", .active, 0, 0, none⟩]
        "u" "a1" (fun _ _ => true)).map some :=
  search_vector_results_accessible
    ⟨[⟨"m1", "u", "a1", "hello", .active, 0, 0, none⟩], [], []⟩
    ⟨"u", "u1"⟩ ⟨"a1", "app1", true⟩ (fun _ _ => true)
    [⟨some "m1", 1, some "hello", none, none, none⟩] "q"
    [⟨some "m1", some "hello", none, none, none, 1⟩] none rfl
    ⟨some "m1", some "hello", none, none, none, 1⟩ (List.mem_singleton.mpr rfl)

/-- C2 (amended): when the memory client is unavailable, search_memory never
raises and returns a response tagged search_method database_text whose results
are exactly the memories of the requesting (user, app) pair with state active
whose content contains the query as a case-insensitive substring, capped at 10
matching rows, THEN filtered to those passing the Access Control Evaluator for
the requesting app (the permission check is applied after the cap), each with
fixed score 1, with one search access-log entry per result.  Stated for
queries without LIKE metacharacters, where the source's ilike condition is
exactly substring containment. -/
theorem search_fallback_characterization
    (db : DB) (user : User) (app : App) (acl : ACL) (query : String)
    (hq : noWild query.data = true) :
    search_memory db user app acl none query =
      (SearchResponse.ok
        ((((db.memories.filter (fun m =>
            m.user_id == user.id && m.app_id == app.id &&
            decide (m.state = MemoryState.active) &&
            containsCI m.content query)).take 10).filter
            (fun m => acl m app.id)).map (fun m =>
          ResultItem.mk (some m.id) (some m.content) none (some m.created_at)
            (some m.updated_at) 1)) (some "database_text"),
       { db with access_logs := db.access_logs ++
          ((((db.memories.filter (fun m =>
              m.user_id == user.id && m.app_id == app.id &&
              decide (m.state = MemoryState.active) &&
              containsCI m.content query)).take 10).filter
              (fun m => acl m app.id)).map (fun m =>
            MemoryAccessLog.mk m.id app.id "search"
              [("query", .str query), ("search_method", .str "database_text")])) }) := by
  have hfil : db.memories.filter (fun m =>
      m.user_id == user.id && m.app_id == app.id &&
      decide (m.state = MemoryState.active) && ilikeContains m.content query) =
    db.memories.filter (fun m =>
      m.user_id == user.id && m.app_id == app.id &&
      decide (m.state = MemoryState.active) && containsCI m.content query) := by
    apply List.filter_congr
    intro m _
    rw [ilikeContains_eq_containsCI m.content query hq]
  simp only [search_memory, hfil]

/-- C2 witness: the fallback path at a concrete database with an allowing
access policy, exercised on the amended characterization. -/
theorem search_fallback_characterization_witness :
    search_memory ⟨[⟨"m1", "u", "a1", "Likes ESPResso daily", .active, 3, 4, none⟩], [], []⟩
        ⟨"u", "u1"⟩ ⟨"a1", "app1", true⟩ (fun _ _ => true) none "espresso" =
      (SearchResponse.ok
        [ResultItem.mk (some "m1") (some "Likes ESPResso daily") none (some 3)
          (some 4) 1] (some "database_text"),
       ⟨[⟨"m1", "u", "a1", "Likes ESPResso daily", .active, 3, 4, none⟩], [],
        [MemoryAccessLog.mk "m1" "a1" "search"
          [("query", .str "espresso"), ("search_method", .str "database_text")]]⟩) :=
  search_fallback_characterization
    ⟨[⟨"m1", "u", "a1", "Likes ESPResso daily", .active, 3, 4, none⟩], [], []⟩
    ⟨"u", "u1"⟩ ⟨"a1", "app1", true⟩ (fun _ _ => true) "espresso" (by decide)

/-- C2 counterexample: the claim as stated - fallback results are exactly the
(user, app, active) memories containing the query, with no access-control
filter - is false: with a denying Access Control Evaluator the matching
memory is removed from the results by the per-memory permission check on the
fallback path (mcp_server.py line 241), so the response holds no result. -/
theorem search_fallback_claim_counterexample :
    ¬ ((search_memory ⟨[⟨"m1", "u", "a1", "likes espresso", .active, 3, 4, none⟩], [], []⟩
          ⟨"u", "u1"⟩ ⟨"a1", "app1", true⟩ (fun _ _ => false) none "espresso").1 =
        SearchResponse.ok
          [ResultItem.mk (some "m1") (some "likes espresso") none (some 3) (some 4) 1]
          (some "database_text")) := by
  decide

/-- C3: evaluating add_memories on an ADD event whose memory id has no
pre-existing row.  The Memory row is indeed created with state active, but the
single appended MemoryStatusHistory entry records old_state = some deleted,
not the null old state the claim (and spec) require for a first-ever
creation: the source computes old_state as deleted-if-memory-else-None after
the local `memory` has been rebound to the new row, so the None branch is
dead. -/
theorem add_memories_new_row_history_eval :
    (add_memories ⟨[], [], []⟩ ⟨"u-int", "u1"⟩ ⟨"a-int", "app1", true⟩
        (some [⟨"m1", .ADD, "likes espresso"⟩]) 7) =
      (.ok,
       ⟨[⟨"m1", "u-int", "a-int", "likes espresso", .active, 7, 7, none⟩],
        [⟨"m1", "u-int", some .deleted, .active⟩], []⟩) := by
  decide

/-- Updating the first row with a given id through an id-preserving function
leaves the id column unchanged. -/
lemma updateFirstMem_map_id (mems : List Memory) (mid : String)
    (f : Memory → Memory) (hf : ∀ m, (f m).id = m.id) :
    (updateFirstMem mems mid f).map (fun m => m.id) =
      mems.map (fun m => m.id) := by
  induction mems with
  | nil => rfl
  | cons m rest ih =>
    cases h : (m.id == mid) with
    | true => simp [updateFirstMem, h, hf]
    | false => simp [updateFirstMem, h, ih]

/-- With pairwise-distinct ids, updating the first row with a given id is a
pointwise conditional map over all rows. -/
lemma updateFirstMem_eq_map (mems : List Memory) (mid : String)
    (f : Memory → Memory) (hnd : (mems.map (fun m => m.id)).Nodup) :
    updateFirstMem mems mid f =
      mems.map (fun m => if m.id == mid then f m else m) := by
  induction mems with
  | nil => rfl
  | cons m rest ih =>
    simp only [List.map_cons, List.nodup_cons] at hnd
    cases h : (m.id == mid) with
    | true =>
      have hmid : m.id = mid := by simpa using h
      have hne : ∀ m' ∈ rest, m'.id ≠ mid := by
        intro m' hm' hcontra
        apply hnd.1
        rw [hmid, ← hcontra]
        exact List.mem_map_of_mem (fun x => x.id) hm'
      have hrest : rest.map (fun m' => if m'.id = mid then f m' else m') = rest := by
        have h1 : ∀ m' ∈ rest, (if m'.id = mid then f m' else m') = m' :=
          fun m' hm' => by simp [hne m' hm']
        simpa using List.map_congr_left h1
      simp [updateFirstMem, h, hmid, hrest]
    | false =>
      have hmid : m.id ≠ mid := by simpa using h
      simp [updateFirstMem, h, hmid, ih hnd.2]

/-- Marking deleted twice is the same as marking deleted once. -/
lemma markDeleted_idem (now : Nat) (m : Memory) :
    markDeleted now (markDeleted now m) = markDeleted now m := rfl

/-- With pairwise-distinct ids, the sequential delete loop equals a single
conditional map: exactly the rows whose id occurs in the id list are marked
deleted. -/
lemma applyDeletes_eq_map (now : Nat) (mems : List Memory) (ids : List String)
    (hnd : (mems.map (fun m => m.id)).Nodup) :
    applyDeletes now mems ids =
      mems.map (fun m => if ids.contains m.id then markDeleted now m else m) := by
  induction ids generalizing mems with
  | nil => simp [applyDeletes]
  | cons i ids ih =>
    have hstep : applyDeletes now mems (i :: ids) =
        applyDeletes now (updateFirstMem mems i (markDeleted now)) ids := rfl
    rw [hstep]
    have hnd' : ((updateFirstMem mems i (markDeleted now)).map
        (fun m => m.id)).Nodup := by
      rw [updateFirstMem_map_id mems i (markDeleted now) (fun _ => rfl)]
      exact hnd
    rw [ih _ hnd', updateFirstMem_eq_map mems i (markDeleted now) hnd,
      List.map_map]
    apply List.map_congr_left
    intro m _
    simp only [Function.comp]
    cases h : (m.id == i) with
    | true =>
      have hmid : m.id = i := by simpa using h
      cases hids : ids.contains (markDeleted now m).id <;>
        simp_all [markDeleted_idem, markDeleted]
    | false =>
      have hmid : m.id ≠ i := by simpa using h
      simp [h, hmid]

/-- For a row of the table, membership of its id in the accessible-id list is
exactly the row-level selection condition, provided ids are pairwise
distinct. -/
lemma contains_accessibleMemoryIds (mems : List Memory) (userId appId : String)
    (acl : ACL) (m : Memory) (hm : m ∈ mems)
    (hnd : (mems.map (fun m => m.id)).Nodup) :
    (accessibleMemoryIds mems userId appId acl).contains m.id =
      (m.user_id == userId && acl m appId) := by
  cases hsel : (m.user_id == userId && acl m appId) with
  | true =>
    have h1 : (m.user_id == userId) = true := ((Bool.and_eq_true _ _).mp hsel).1
    have h2 : acl m appId = true := ((Bool.and_eq_true _ _).mp hsel).2
    have hmem : m ∈ (mems.filter (fun x => x.user_id == userId)).filter
        (fun x => acl x appId) :=
      List.mem_filter.mpr ⟨List.mem_filter.mpr ⟨hm, h1⟩, h2⟩
    have : m.id ∈ accessibleMemoryIds mems userId appId acl :=
      List.mem_map_of_mem (fun x => x.id) hmem
    exact List.elem_iff.mpr this
  | false =>
    cases hcon : (accessibleMemoryIds mems userId appId acl).contains m.id with
    | false => rfl
    | true =>
      exfalso
      have hmem := List.elem_iff.mp hcon
      obtain ⟨m', hm', hid⟩ := List.mem_map.mp hmem
      have hm'2 := List.mem_filter.mp hm'
      have hm'3 := List.mem_filter.mp hm'2.1
      have heq : m' = m :=
        List.inj_on_of_nodup_map hnd hm'3.1 hm hid
      rw [heq] at hm'2 hm'3
      rw [(Bool.and_eq_true _ _).mpr ⟨hm'3.2, hm'2.2⟩] at hsel
      exact Bool.true_eq_false.mp hsel

/-- The full relational effect of delete_all_memories, given pairwise-distinct
ids: rows owned by the user and passing the access check are marked deleted
with the shared timestamp; one history entry (old state active) and one
delete_all access-log entry are appended per such row; nothing else changes. -/
lemma delete_all_memories_db_eq (db : DB) (user : User) (app : App) (acl : ACL)
    (fails : String → Bool) (now : Nat)
    (hnd : (db.memories.map (fun m => m.id)).Nodup) :
    (delete_all_memories db user app acl fails now).db =
      ⟨db.memories.map (fun m =>
          if m.user_id == user.id && acl m app.id then markDeleted now m else m),
       db.history ++ (accessibleMemoryIds db.memories user.id app.id acl).map
         (fun mid => MemoryStatusHistory.mk mid user.id (some .active) .deleted),
       db.access_logs ++ (accessibleMemoryIds db.memories user.id app.id acl).map
         (fun mid => MemoryAccessLog.mk mid app.id "delete_all"
           [("operation", .str "bulk_delete")])⟩ := by
  simp only [delete_all_memories]
  congr 1
  rw [applyDeletes_eq_map now db.memories _ hnd]
  apply List.map_congr_left
  intro m hm
  rw [contains_accessibleMemoryIds db.memories user.id app.id acl m hm hnd]

/-- C4: delete_all_memories transitions to deleted exactly the memories owned
by the requesting user that pass the Access Control Evaluator for the
requesting app, writing one history entry and one delete_all access-log entry
per such memory; every other row - including rows owned by the same user but
not accessible to this app - is left completely unchanged; and the relational
outcome is identical whatever per-id vector-store deletes fail, so a vector
failure never prevents the relational transition. -/
theorem delete_all_scope_and_frame (db : DB) (user : User) (app : App)
    (acl : ACL) (fails fails' : String → Bool) (now : Nat)
    (hnd : (db.memories.map (fun m => m.id)).Nodup) :
    (delete_all_memories db user app acl fails now).db.memories =
        db.memories.map (fun m =>
          if m.user_id == user.id && acl m app.id then markDeleted now m else m) ∧
    (delete_all_memories db user app acl fails now).db.history =
        db.history ++ (accessibleMemoryIds db.memories user.id app.id acl).map
          (fun mid => MemoryStatusHistory.mk mid user.id (some .active) .deleted) ∧
    (delete_all_memories db user app acl fails now).db.access_logs =
        db.access_logs ++ (accessibleMemoryIds db.memories user.id app.id acl).map
          (fun mid => MemoryAccessLog.mk mid app.id "delete_all"
            [("operation", .str "bulk_delete")]) ∧
    (delete_all_memories db user app acl fails now).db =
        (delete_all_memories db user app acl fails' now).db ∧
    (delete_all_memories db user app acl fails now).response =
        (delete_all_memories db user app acl fails' now).response := by
  have h := delete_all_memories_db_eq db user app acl fails now hnd
  have h' := delete_all_memories_db_eq db user app acl fails' now hnd
  refine ⟨?_, ?_, ?_, ?_, rfl⟩
  · rw [h]
  · rw [h]
  · rw [h]
  · rw [h, h']

/-- C4 witness: two accessible memories of the user under app a1 and one
memory of the same user under app a2, with an app-scoped policy; the two
accessible rows are deleted, the third is untouched, and the outcome is the
same whether the vector-store deletes all fail or all succeed. -/
theorem delete_all_scope_and_frame_witness :
    (delete_all_memories
        ⟨[⟨"m1", "u", "a1", "one", .active, 1, 1, none⟩,
          ⟨"m2", "u", "a1", "two", .active, 2, 2, none⟩,
          ⟨"m3", "u", "a2", "three", .active, 3, 3, none⟩], [], []⟩
        ⟨"u", "u1"⟩ ⟨"a1", "app1", true⟩ (fun m appId => m.app_id == appId)
        (fun _ => true) 9).db.memories =
      [⟨"m1", "u", "a1", "one", .deleted, 1, 1, some 9⟩,
       ⟨"m2", "u", "a1", "two", .deleted, 2, 2, some 9⟩,
       ⟨"m3", "u", "a2", "three", .active, 3, 3, none⟩] ∧
    (delete_all_memories
        ⟨[⟨"m1", "u", "a1", "one", .active, 1, 1, none⟩,
          ⟨"m2", "u", "a1", "two", .active, 2, 2, none⟩,
          ⟨"m3", "u", "a2", "three", .active, 3, 3, none⟩], [], []⟩
        ⟨"u", "u1"⟩ ⟨"a1", "app1", true⟩ (fun m appId => m.app_id == appId)
        (fun _ => true) 9).db =
      (delete_all_memories
        ⟨[⟨"m1", "u", "a1", "one", .active, 1, 1, none⟩,
          ⟨"m2", "u", "a1", "two", .active, 2, 2, none⟩,
          ⟨"m3", "u", "a2", "three", .active, 3, 3, none⟩], [], []⟩
        ⟨"u", "u1"⟩ ⟨"a1", "app1", true⟩ (fun m appId => m.app_id == appId)
        (fun _ => false) 9).db := by
  have h := delete_all_scope_and_frame
    ⟨[⟨"m1", "u", "a1", "one", .active, 1, 1, none⟩,
      ⟨"m2", "u", "a1", "two", .active, 2, 2, none⟩,
      ⟨"m3", "u", "a2", "three", .active, 3, 3, none⟩], [], []⟩
    ⟨"u", "u1"⟩ ⟨"a1", "app1", true⟩ (fun m appId => m.app_id == appId)
    (fun _ => true) (fun _ => false) 9 (by decide)
  exact ⟨h.1, h.2.2.2.1⟩

/-- C10: delete_all_memories selects by ownership and access check only, with
no condition on the current state: any accessible memory of the user - even
one already in state deleted - is re-marked deleted with the one timestamp
captured for the whole call (overwriting its previous deleted_at), and the
appended history entry always records old_state = active regardless of the
actual prior state. -/
theorem delete_all_ignores_prior_state (db : DB) (user : User) (app : App)
    (acl : ACL) (fails : String → Bool) (now : Nat) (m : Memory)
    (hnd : (db.memories.map (fun x => x.id)).Nodup)
    (hm : m ∈ db.memories) (huser : m.user_id = user.id)
    (hacl : acl m app.id = true) :
    markDeleted now m ∈ (delete_all_memories db user app acl fails now).db.memories ∧
    MemoryStatusHistory.mk m.id user.id (some .active) .deleted ∈
      (delete_all_memories db user app acl fails now).db.history := by
  have h := delete_all_memories_db_eq db user app acl fails now hnd
  rw [h]
  constructor
  · apply List.mem_map.mpr
    refine ⟨m, hm, ?_⟩
    rw [if_pos]
    rw [(Bool.and_eq_true _ _).mpr ⟨beq_iff_eq.mpr huser, hacl⟩]
  · apply List.mem_append_right
    apply List.mem_map.mpr
    refine ⟨m.id, ?_, rfl⟩
    simp only [accessibleMemoryIds]
    refine List.mem_map.mpr ⟨m, ?_, rfl⟩
    refine List.mem_filter.mpr ⟨List.mem_filter.mpr ⟨hm, ?_⟩, ?_⟩
    · simpa using huser
    · simpa using hacl

/-- C10 witness: a memory already in state deleted (deleted_at 5) is selected
anyway; its deleted_at is overwritten with the call's timestamp 9 and the
history entry claims old_state = active. -/
theorem delete_all_ignores_prior_state_witness :
    (⟨"m1", "u", "a1", "old", .deleted, 0, 0, some 9⟩ : Memory) ∈
      (delete_all_memories
        ⟨[⟨"m1", "u", "a1", "old", .deleted, 0, 0, some 5⟩], [], []⟩
        ⟨"u", "u1"⟩ ⟨"a1", "app1", true⟩ (fun _ _ => true)
        (fun _ => false) 9).db.memories ∧
    MemoryStatusHistory.mk "m1" "u" (some .active) .deleted ∈
      (delete_all_memories
        ⟨[⟨"m1", "u", "a1", "old", .deleted, 0, 0, some 5⟩], [], []⟩
        ⟨"u", "u1"⟩ ⟨"a1", "app1", true⟩ (fun _ _ => true)
        (fun _ => false) 9).db.history :=
  delete_all_ignores_prior_state
    ⟨[⟨"m1", "u", "a1", "old", .deleted, 0, 0, some 5⟩], [], []⟩
    ⟨"u", "u1"⟩ ⟨"a1", "app1", true⟩ (fun _ _ => true) (fun _ => false) 9
    ⟨"m1", "u", "a1", "old", .deleted, 0, 0, some 5⟩
    (by decide) (by decide) rfl rfl

/-- C8: when the requesting app has is_active false, add_memories reports the
paused-app error and leaves the relational state untouched - no Memory row,
no history entry - while search_memory is entirely insensitive to the flag:
its outcome is the same as for the identical app with is_active true.  The
paused check lives only on the write path. -/
theorem paused_app_blocks_writes_not_search (db : DB) (user : User) (app : App)
    (acl : ACL) (events : List ClientResult) (client : Option (List Hit))
    (query : String) (now : Nat) (hpaused : app.is_active = false) :
    add_memories db user app (some events) now =
      (.err ("Error: App " ++ app.name ++
        " is currently paused on OpenMemory. Cannot create new memories."), db) ∧
    search_memory db user app acl client query =
      search_memory db user ⟨app.id, app.name, true⟩ acl client query := by
  constructor
  · simp [add_memories, hpaused]
  · obtain ⟨aid, aname, hact⟩ := app
    rfl

/-- C8 witness: a concrete paused app rejects a write unchanged-state and
searches exactly as its active twin. -/
theorem paused_app_blocks_writes_not_search_witness :
    add_memories ⟨[], [], []⟩ ⟨"u", "u1"⟩ ⟨"a1", "app1", false⟩
        (some [⟨"m1", .ADD, "x"⟩]) 0 =
      (.err "Error: App app1 is currently paused on OpenMemory. Cannot create new memories.",
       ⟨[], [], []⟩) ∧
    search_memory ⟨[], [], []⟩ ⟨"u", "u1"⟩ ⟨"a1", "app1", false⟩
        (fun _ _ => true) none "q" =
      search_memory ⟨[], [], []⟩ ⟨"u", "u1"⟩ ⟨"a1", "app1", true⟩
        (fun _ _ => true) none "q" :=
  paused_app_blocks_writes_not_search ⟨[], [], []⟩ ⟨"u", "u1"⟩
    ⟨"a1", "app1", false⟩ (fun _ _ => true) [⟨"m1", .ADD, "x"⟩] none "q" 0 rfl

/-- Every record kept by the dict-shaped list filter has an id in the
accessible list, and exactly one list access-log entry for the requesting app
is produced per kept record. -/
lemma listFilterDict_spec (acc : List String) (appId : String)
    (rs : List VecRecord) :
    (∀ r ∈ (listFilterDict acc appId rs).1, ∃ i, r.id = some i ∧ i ∈ acc) ∧
    (listFilterDict acc appId rs).2.length = (listFilterDict acc appId rs).1.length ∧
    ∀ l ∈ (listFilterDict acc appId rs).2,
      l.access_type = "list" ∧ l.app_id = appId := by
  induction rs with
  | nil => exact ⟨by simp [listFilterDict], rfl, by simp [listFilterDict]⟩
  | cons r rest ih =>
    obtain ⟨ih1, ih2, ih3⟩ := ih
    cases hid : r.id with
    | none => simpa [listFilterDict, hid] using ⟨ih1, ih2, ih3⟩
    | some i =>
      by_cases hmem : i ∈ acc
      · refine ⟨?_, ?_, ?_⟩
        · intro x hx
          simp [listFilterDict, hid, hmem] at hx
          cases hx with
          | inl hx => exact ⟨i, by rw [hx, hid], hmem⟩
          | inr hx => exact ih1 x hx
        · simp [listFilterDict, hid, hmem, ih2]
        · intro l hl
          simp [listFilterDict, hid, hmem] at hl
          cases hl with
          | inl hl => exact ⟨by rw [hl]; rfl, by rw [hl]; rfl⟩
          | inr hl => exact ih3 l hl
      · simpa [listFilterDict, hid, hmem] using ⟨ih1, ih2, ih3⟩

/-- Every record kept by the plain-shaped list filter comes from the input
list and carries the id of a stored row passing the access check; one list
access-log entry for the requesting app is produced per kept record. -/
lemma listFilterPlain_spec (mems : List Memory) (acl : ACL) (appId : String)
    (rs : List VecRecord) (p : List VecRecord × List MemoryAccessLog)
    (hok : listFilterPlain mems acl appId rs = .ok p) :
    (∀ r ∈ p.1, r ∈ rs ∧ ∃ i m, r.id = some i ∧ m ∈ mems ∧ m.id = i ∧
      acl m appId = true) ∧
    p.2.length = p.1.length ∧
    ∀ l ∈ p.2, l.access_type = "list" ∧ l.app_id = appId := by
  induction rs generalizing p with
  | nil =>
    simp only [listFilterPlain] at hok
    cases hok
    exact ⟨by simp, rfl, by simp⟩
  | cons r rest ih =>
    cases hid : r.id with
    | none => simp [listFilterPlain, hid] at hok
    | some i =>
      simp only [listFilterPlain, hid] at hok
      cases hrec : listFilterPlain mems acl appId rest with
      | error e => rw [hrec] at hok; cases hok
      | ok q =>
        rw [hrec] at hok
        obtain ⟨ih1, ih2, ih3⟩ := ih q hrec
        cases hfind : mems.find? (fun m => m.id == i) with
        | none =>
          simp only [hfind] at hok
          cases hok
          exact ⟨fun x hx => ⟨List.mem_cons_of_mem r (ih1 x hx).1, (ih1 x hx).2⟩,
            ih2, ih3⟩
        | some m =>
          simp only [hfind] at hok
          cases hacl : acl m appId with
          | false =>
            rw [hacl] at hok
            simp only [Bool.false_eq_true, if_false] at hok
            cases hok
            exact ⟨fun x hx => ⟨List.mem_cons_of_mem r (ih1 x hx).1, (ih1 x hx).2⟩,
              ih2, ih3⟩
          | true =>
            rw [hacl] at hok
            simp only [if_true] at hok
            cases hok
            refine ⟨?_, ?_, ?_⟩
            · intro x hx
              cases List.mem_cons.mp hx with
              | inl hx1 =>
                refine ⟨by rw [hx1]; exact List.mem_cons_self r rest,
                  i, m, by rw [hx1, hid], List.mem_of_find?_eq_some hfind, ?_, hacl⟩
                have := List.find?_some hfind
                simpa using this
              | inr hx1 =>
                exact ⟨List.mem_cons_of_mem r (ih1 x hx1).1, (ih1 x hx1).2⟩
            · simp [ih2]
            · intro l hl
              cases List.mem_cons.mp hl with
              | inl hl1 => exact ⟨by rw [hl1]; rfl, by rw [hl1]; rfl⟩
              | inr hl1 => exact ih3 l hl1

/-- C9: for the designated virtual user id slack-bot, list_memories returns
every record fetched from the vector capability, with no access-control
filtering and no access-log write; for every other user id, every returned
record's id lies in the accessible set computed by the Access Control
Evaluator for the requesting app, and exactly one list access-log entry for
this app is appended per returned record.  The ownership hypothesis states
that the records fetched for this user map back (via ids) to rows owned by
this user, which is how the per-user get_all call scopes its answer. -/
theorem list_memories_virtual_user_and_acl (db : DB) (user : User) (app : App)
    (acl : ACL) (resp : GetAllResponse) (returned : List VecRecord) (db' : DB)
    (hown : ∀ r ∈ respRecords resp, ∀ m ∈ db.memories, r.id = some m.id →
      m.user_id = user.id)
    (hres : list_memories db user app acl (some resp) = (.ok returned, db')) :
    (user.user_id = "slack-bot" → returned = respRecords resp ∧ db' = db) ∧
    (user.user_id ≠ "slack-bot" →
      (∀ r ∈ returned,
        r.id ∈ (accessibleMemoryIds db.memories user.id app.id acl).map some) ∧
      db'.access_logs.length = db.access_logs.length + returned.length ∧
      ∀ l ∈ db'.access_logs.drop db.access_logs.length,
        l.access_type = "list" ∧ l.app_id = app.id) := by
  by_cases hsb : user.user_id = "slack-bot"
  · refine ⟨fun _ => ?_, fun hne => absurd hsb hne⟩
    have hbeq : (user.user_id == "slack-bot") = true := beq_iff_eq.mpr hsb
    simp only [list_memories, hbeq, if_true] at hres
    injection hres with hfst hsnd
    injection hfst with hrecords
    exact ⟨hrecords.symm, hsnd.symm⟩
  · refine ⟨fun heq => absurd heq hsb, fun _ => ?_⟩
    have hbeq : (user.user_id == "slack-bot") = false := by
      cases h2 : (user.user_id == "slack-bot")
      · rfl
      · exact absurd (beq_iff_eq.mp h2) hsb
    cases resp with
    | dict results =>
      simp only [list_memories, hbeq, Bool.false_eq_true, if_false] at hres
      injection hres with hfst hsnd
      injection hfst with hrecords
      subst hrecords
      subst hsnd
      obtain ⟨h1, h2, h3⟩ := listFilterDict_spec
        (accessibleMemoryIds db.memories user.id app.id acl) app.id results
      refine ⟨?_, ?_, ?_⟩
      · intro r hr
        obtain ⟨i, hi, hmem⟩ := h1 r hr
        rw [hi]
        exact List.mem_map_of_mem some hmem
      · simp [h2]
      · intro l hl
        simp only [List.drop_left] at hl
        exact h3 l hl
    | plain records =>
      simp only [list_memories, hbeq, Bool.false_eq_true, if_false] at hres
      cases hrec : listFilterPlain db.memories acl app.id records with
      | error e => rw [hrec] at hres; cases hres
      | ok p =>
        rw [hrec] at hres
        obtain ⟨h1, h2, h3⟩ := listFilterPlain_spec db.memories acl app.id
          records p hrec
        injection hres with hfst hsnd
        injection hfst with hrecords
        subst hrecords
        subst hsnd
        refine ⟨?_, ?_, ?_⟩
        · intro r hr
          obtain ⟨hrin, i, m, hi, hmmem, hmid, hmacl⟩ := h1 r hr
          have huser : m.user_id = user.id :=
            hown r hrin m hmmem (by rw [hi, hmid])
          rw [hi]
          apply List.mem_map_of_mem some
          rw [← hmid]
          simp only [accessibleMemoryIds]
          refine List.mem_map.mpr ⟨m, ?_, rfl⟩
          refine List.mem_filter.mpr ⟨List.mem_filter.mpr ⟨hmmem, ?_⟩, ?_⟩
          · simpa using huser
          · simpa using hmacl
        · simp [h2]
        · intro l hl
          simp only [List.drop_left] at hl
          exact h3 l hl

/-- C9 witness: the slack-bot user receives every fetched record with no log
written, while an ordinary user receives only the allow-listed record m1 with
exactly one list access-log entry. -/
theorem list_memories_virtual_user_and_acl_witness :
    ([⟨some "m1", none⟩, ⟨none, some "h"⟩] =
        respRecords (.dict [⟨some "m1", none⟩, ⟨none, some "h"⟩]) ∧
      (⟨[], [], []⟩ : DB) = ⟨[], [], []⟩) ∧
    (some "m1" : Option String) ∈
      (accessibleMemoryIds [⟨"m1", "u", "a1", "one", .active, 1, 1, none⟩]
        "u" "a1" (fun _ _ => true)).map some ∧
    ([MemoryAccessLog.mk "m1" "a1" "list" [("hash", .str "h")]] :
        List MemoryAccessLog).length = ([] : List MemoryAccessLog).length +
      ([⟨some "m1", some "h"⟩] : List VecRecord).length := by
  refine ⟨?_, ?_, ?_⟩
  · exact (list_memories_virtual_user_and_acl ⟨[], [], []⟩ ⟨"sb", "slack-bot"⟩
      ⟨"a1", "app1", true⟩ (fun _ _ => true)
      (.dict [⟨some "m1", none⟩, ⟨none, some "h"⟩])
      [⟨some "m1", none⟩, ⟨none, some "h"⟩] ⟨[], [], []⟩
      (by intro r _ m hm; simp at hm) rfl).1 rfl
  · exact ((list_memories_virtual_user_and_acl
      ⟨[⟨"m1", "u", "a1", "one", .active, 1, 1, none⟩], [], []⟩ ⟨"u", "u1"⟩
      ⟨"a1", "app1", true⟩ (fun _ _ => true)
      (.dict [⟨some "m1", some "h"⟩, ⟨some "m2", none⟩, ⟨none, some "x"⟩])
      [⟨some "m1", some "h"⟩]
      ⟨[⟨"m1", "u", "a1", "one", .active, 1, 1, none⟩], [],
       [MemoryAccessLog.mk "m1" "a1" "list" [("hash", .str "h")]]⟩
      (by decide) rfl).2 (by decide)).1 ⟨some "m1", some "h"⟩
      (List.mem_singleton.mpr rfl)
  · exact ((list_memories_virtual_user_and_acl
      ⟨[⟨"m1", "u", "a1", "one", .active, 1, 1, none⟩], [], []⟩ ⟨"u", "u1"⟩
      ⟨"a1", "app1", true⟩ (fun _ _ => true)
      (.dict [⟨some "m1", some "h"⟩, ⟨some "m2", none⟩, ⟨none, some "x"⟩])
      [⟨some "m1", some "h"⟩]
      ⟨[⟨"m1", "u", "a1", "one", .active, 1, 1, none⟩], [],
       [MemoryAccessLog.mk "m1" "a1" "list" [("hash", .str "h")]]⟩
      (by decide) rfl).2 (by decide)).2.1

/-- A dry run counts every grouped memory as synced, records no error, and
touches neither the embedding nor the vector capability. -/
lemma runUsers_dry (fails : String → Bool) (gs : List (String × List Memory)) :
    runUsers true fails gs = (groupSizes gs, 0, noEffects) := by
  induction gs with
  | nil => rfl
  | cons g gs ih =>
    cases hemp : g.2.isEmpty with
    | true =>
      have hlen : g.2.length = 0 := by
        rw [List.isEmpty_iff.mp hemp]; rfl
      simp [runUsers, bulk_sync_user_to_qdrant, hemp, ih, groupSizes,
        combineEffects, noEffects, hlen]
    | false =>
      simp [runUsers, bulk_sync_user_to_qdrant, hemp, ih, groupSizes,
        combineEffects, noEffects]

/-- A real run's synced and error counters are the batch-size sums over the
non-failing and failing users respectively. -/
lemma runUsers_real (fails : String → Bool) (gs : List (String × List Memory)) :
    (runUsers false fails gs).1 = syncedOf fails gs ∧
    (runUsers false fails gs).2.1 = errorsOf fails gs := by
  induction gs with
  | nil => exact ⟨rfl, rfl⟩
  | cons g gs ih =>
    cases hemp : g.2.isEmpty with
    | true =>
      have hlen : g.2.length = 0 := by
        rw [List.isEmpty_iff.mp hemp]; rfl
      constructor
      · simp [runUsers, bulk_sync_user_to_qdrant, hemp, ih.1, syncedOf, hlen]
      · simp [runUsers, bulk_sync_user_to_qdrant, hemp, ih.2, errorsOf, hlen]
    | false =>
      have hne : g.2 ≠ [] := by
        intro hc
        rw [hc] at hemp
        simp at hemp
      cases hf : fails g.1 with
      | true =>
        constructor
        · simp [runUsers, bulk_sync_user_to_qdrant, hemp, hf, ih.1, syncedOf, hne]
        · simp [runUsers, bulk_sync_user_to_qdrant, hemp, hf, ih.2, errorsOf, hne]
      | false =>
        constructor
        · simp [runUsers, bulk_sync_user_to_qdrant, hemp, hf, ih.1, syncedOf, hne]
        · simp [runUsers, bulk_sync_user_to_qdrant, hemp, hf, ih.2, errorsOf, hne]

/-- Without failing users, a real run syncs every grouped memory. -/
lemma syncedOf_const_false (gs : List (String × List Memory)) :
    syncedOf (fun _ => false) gs = groupSizes gs := by
  simp [syncedOf, groupSizes]

/-- C5: the statistics dictionary returned by sync_qdrant never carries a
users_cleared key - its keys are total, synced, errors and dry_run - so the
sync_vector_store tool, which reads result["users_cleared"], always takes the
KeyError path and returns an error response instead of the claimed
four-field statistics. -/
theorem sync_stats_missing_users_cleared (rows : List MemRow)
    (whitelist : List String) (cutoff : String → Option Nat)
    (fails : String → Bool) :
    lookupKey (sync_qdrant false rows whitelist cutoff fails).stats
        "users_cleared" = none ∧
    sync_vector_store rows whitelist cutoff fails =
      .errorResp "KeyError while reading sync statistics" := by
  exact ⟨rfl, rfl⟩

/-- C6: a dry run returns the same total and the same synced count as a real
run with no per-user errors on the same relational snapshot, while performing
zero embedding calls and zero vector upserts, so the vector-index state is
untouched by the dry run. -/
theorem sync_dry_run_matches_real (rows : List MemRow)
    (whitelist : List String) (cutoff : String → Option Nat)
    (fails : String → Bool) :
    lookupKey (sync_qdrant true rows whitelist cutoff fails).stats "total" =
      lookupKey (sync_qdrant false rows whitelist cutoff (fun _ => false)).stats
        "total" ∧
    lookupKey (sync_qdrant true rows whitelist cutoff fails).stats "synced" =
      lookupKey (sync_qdrant false rows whitelist cutoff (fun _ => false)).stats
        "synced" ∧
    (sync_qdrant true rows whitelist cutoff fails).effects = noEffects := by
  refine ⟨rfl, ?_, ?_⟩
  · simp only [sync_qdrant, lookupKey]
    rw [runUsers_dry, (runUsers_real (fun _ => false) _).1, syncedOf_const_false]
    rfl
  · simp only [sync_qdrant]
    rw [runUsers_dry]

/-- C7: when synchronizing a user's batch raises, the exception is absorbed:
the run still returns the full statistics dictionary, whose errors field is
the total batch size of the failing users and whose synced field is the total
batch size of all the other users - so one user's failure never aborts the
processing of the remaining users. -/
theorem sync_user_failure_isolated (rows : List MemRow)
    (whitelist : List String) (cutoff : String → Option Nat)
    (fails : String → Bool) :
    (sync_qdrant false rows whitelist cutoff fails).stats =
      [("total", .int (rows.filter
          (fun r => decide (r.mem.state = MemoryState.active))).length),
       ("synced", .int (syncedOf fails (groupMemories whitelist cutoff
          (rows.filter (fun r => decide (r.mem.state = MemoryState.active)))))),
       ("errors", .int (errorsOf fails (groupMemories whitelist cutoff
          (rows.filter (fun r => decide (r.mem.state = MemoryState.active)))))),
       ("dry_run", .bool false)] := by
  simp only [sync_qdrant]
  rw [(runUsers_real fails _).1, (runUsers_real fails _).2]

end OpenMemory
